import Mathlib

/-!
Verification of the slice-extraction heuristic engine (`slice.py`).

The engine scans decompiled source text for malicious-behaviour
indicators and emits bounded, deduplicated, line-windowed code slices.
This file gives a shallow embedding of the engine's core functions and
proves (or refutes) the specified properties about them.

Text is modelled as `List Char`.  The regular-expression match
collection (`_collect_matches`) invokes an external pattern engine; the
pipeline is therefore parametrised by the per-trigger match lists it
produces, and the downstream processing (`_severity_policy`,
`_make_slice`, `_insert_dedup`, `_try_add_slice`, `process_units`, ...)
is embedded faithfully.  The base64-across-literals sub-scan
(`_decode_with_map`, `_find_b64_concat_mapped`) is embedded directly,
parametrised by the list of (body-start-offset, literal-body) pairs that
the literal-sequence patterns extract from the original text.
-/

/-- ASCII hex digit, the character class used by `_decode_with_map` for
`\xHH` escapes. -/
def isHexDigitA (c : Char) : Bool :=
  c.isDigit || ('a' ≤ c && c ≤ 'f') || ('A' ≤ c && c ≤ 'F')

/-- Octal digit `0`..`7`. -/
def isOctDigit (c : Char) : Bool := '0' ≤ c && c ≤ '7'

/-- Numeric value of a hex digit. -/
def hexVal (c : Char) : Nat :=
  if c.isDigit then c.toNat - 48
  else if 'a' ≤ c && c ≤ 'f' then c.toNat - 87
  else if 'A' ≤ c && c ≤ 'F' then c.toNat - 55
  else 0

/-- Numeric value of an octal digit. -/
def octVal (c : Char) : Nat := c.toNat - 48

/-- The escape-decoding loop of `_decode_with_map`, enriched: for every
decoded character it records the start offset *and* the end offset of
the original source characters consumed for it (the Python code records
only the start offset; projecting the first two components of each
entry recovers it exactly).  `pos` is the current index `i` into the raw
literal body. -/
def decodeAux : Nat → List Char → List (Char × Nat × Nat)
  | _, [] => []
  | pos, c :: tl =>
    if c = '\\' then
      match tl with
      | [] => [('\\', pos, pos + 1)]
      | n :: tl2 =>
        if n = '\\' ∨ n = '"' ∨ n = '\'' then (n, pos, pos + 2) :: decodeAux (pos + 2) tl2
        else if n = 'n' then ('\n', pos, pos + 2) :: decodeAux (pos + 2) tl2
        else if n = 'r' then ('\r', pos, pos + 2) :: decodeAux (pos + 2) tl2
        else if n = 't' then ('\t', pos, pos + 2) :: decodeAux (pos + 2) tl2
        else if n = 'x' then
          match tl2 with
          | [] => [('x', pos, pos + 2)]
          | h1 :: tl3 =>
            if isHexDigitA h1 then
              match tl3 with
              | [] => [(Char.ofNat (hexVal h1), pos, pos + 3)]
              | h2 :: tl4 =>
                if isHexDigitA h2 then
                  (Char.ofNat (16 * hexVal h1 + hexVal h2), pos, pos + 4) :: decodeAux (pos + 4) tl4
                else
                  (Char.ofNat (hexVal h1), pos, pos + 3) :: decodeAux (pos + 3) (h2 :: tl4)
            else ('x', pos, pos + 2) :: decodeAux (pos + 2) (h1 :: tl3)
        else if isOctDigit n then
          match tl2 with
          | [] => [(Char.ofNat (octVal n), pos, pos + 2)]
          | d2 :: tl3 =>
            if isOctDigit d2 then
              match tl3 with
              | [] => [(Char.ofNat (8 * octVal n + octVal d2), pos, pos + 3)]
              | d3 :: tl4 =>
                if isOctDigit d3 then
                  (Char.ofNat (64 * octVal n + 8 * octVal d2 + octVal d3), pos, pos + 4) :: decodeAux (pos + 4) tl4
                else
                  (Char.ofNat (8 * octVal n + octVal d2), pos, pos + 3) :: decodeAux (pos + 3) (d3 :: tl4)
            else (Char.ofNat (octVal n), pos, pos + 2) :: decodeAux (pos + 2) (d2 :: tl3)
        else (n, pos, pos + 2) :: decodeAux (pos + 2) tl2
    else (c, pos, pos + 1) :: decodeAux (pos + 1) tl

/-- `_decode_with_map(raw)`: the decoded characters together with the
per-character original start-offset map `idx_map`. -/
def decodeWithMap (raw : List Char) : List Char × List Nat :=
  ((decodeAux 0 raw).map (fun t => t.1), (decodeAux 0 raw).map (fun t => t.2.1))

/-- The base64 alphabet class `[A-Za-z0-9+/]`. -/
def isB64Char (c : Char) : Bool := c.isAlpha || c.isDigit || c = '+' || c = '/'

/-- The literal suffix the compiled base64 pattern requires after the
alphabet run.  `_mk_base64_rx` builds the pattern with the f-string
`rf"[A-Za-z0-9+/]{{{n},}}={0,2}"`; in an f-string `{0,2}` is a
replacement field holding the tuple `(0, 2)`, so the compiled pattern
is `[A-Za-z0-9+/]{n,}=(0, 2)` — after the run it requires `=` followed
by the group matching the literal text `0, 2` (not "up to two `=`"). -/
def b64Suffix : List Char → Bool
  | a :: b :: c :: d :: e :: _ => a = '=' && b = '0' && c = ',' && d = ' ' && e = '2'
  | _ => false

/-- Left-to-right scan producing the matches of the compiled base64
pattern `[A-Za-z0-9+/]{n,}=(0, 2)` (see `b64Suffix`) as found by a
non-overlapping leftmost-greedy scan (the semantics of `finditer`): a
match starts exactly at a position whose maximal alphabet run has
length at least `n` and is followed by the 5-character literal suffix
`=0, 2`; the match consumes the run and the suffix.  Since `=` is not
in the alphabet class, the greedy run never backtracks, and no match
can start inside another candidate's run (its run is a shorter suffix
with the same follow set).  Fuel-based; fuel `length + 1` suffices. -/
def b64ScanAux (n : Nat) : Nat → List Char → Nat → List (Nat × Nat)
  | 0, _, _ => []
  | fuel + 1, l, i =>
    if l.isEmpty then []
    else
      let r := (l.takeWhile isB64Char).length
      if n ≤ r ∧ b64Suffix (l.drop r) = true then
        (i, i + r + 5) :: b64ScanAux n fuel (l.drop (r + 5)) (i + r + 5)
      else b64ScanAux n fuel (l.drop (r + 1)) (i + r + 1)

/-- All base64 hits `(start, end)` in a decoded string. -/
def b64Runs (n : Nat) (s : List Char) : List (Nat × Nat) :=
  b64ScanAux n (s.length + 1) s 0

/-- Decode every literal body of a run of adjacent string literals,
shifting each body's offset map by the body's start offset in the
original text, and concatenate — the `parts`/`agg`/`amap` aggregation of
`_find_b64_concat_mapped`, keeping the end offsets alongside. -/
def decodeParts (parts : List (Nat × List Char)) : List (Char × Nat × Nat) :=
  parts.flatMap (fun p => (decodeAux 0 p.2).map (fun t => (t.1, p.1 + t.2.1, p.1 + t.2.2)))

/-- `_find_b64_concat_mapped`: scan the decoded concatenation with the
base64 pattern and translate each hit back through the offset map,
producing `(start_idx, end_idx, fragment)` triples.  `parts` is the list
of (original-text offset of the literal body, literal body) pairs
extracted from the run of adjacent literals. -/
def findB64Mapped (n : Nat) (parts : List (Nat × List Char)) : List (Nat × Nat × List Char) :=
  let trips := decodeParts parts
  let full := trips.map (fun t => t.1)
  let amap := trips.map (fun t => t.2.1)
  (b64Runs n full).filterMap (fun p =>
    if p.1 < amap.length ∧ p.2 - 1 < amap.length then
      some (amap.getD p.1 0, amap.getD (p.2 - 1) 0 + 1, (full.drop p.1).take (p.2 - p.1))
    else none)

/-- The claimed exact-delimitation property: every reported match's
start/end offsets delimit exactly the original pre-decode text whose
decoding is the matched base64 run, i.e. the start offset is the source
start of the first matched character and the end offset is the source
*end* of the last matched character. -/
def B64MapExact (n : Nat) (parts : List (Nat × List Char)) : Prop :=
  ∀ r ∈ findB64Mapped n parts,
    ∃ k : Fin (decodeParts parts).length, ∃ l : Fin (decodeParts parts).length,
      r.1 = ((decodeParts parts).get k).2.1 ∧
      r.2.1 = ((decodeParts parts).get l).2.2 ∧
      r.2.2 = (((decodeParts parts).drop (k : Nat)).take ((l : Nat) - (k : Nat) + 1)).map (fun t => t.1)

theorem b64Suffix_len (l : List Char) (h : b64Suffix l = true) : 5 ≤ l.length := by
  rcases l with _ | ⟨a, _ | ⟨b, _ | ⟨c, _ | ⟨d, _ | ⟨e, rest⟩⟩⟩⟩⟩ <;>
    simp [b64Suffix] at h ⊢

theorem b64ScanAux_nil (n : Nat) : ∀ fuel i, b64ScanAux n fuel [] i = [] := by
  intro fuel i; cases fuel <;> simp [b64ScanAux]

theorem b64ScanAux_bounds (n : Nat) :
    ∀ fuel l i, ∀ p ∈ b64ScanAux n fuel l i, i ≤ p.1 ∧ p.1 < p.2 ∧ p.2 ≤ i + l.length := by
  intro fuel
  induction fuel with
  | zero => intro l i p hp; simp [b64ScanAux] at hp
  | succ fuel ih =>
    intro l i p hp
    cases l with
    | nil => simp [b64ScanAux] at hp
    | cons c tl =>
      rw [b64ScanAux] at hp
      simp only [List.isEmpty_cons, Bool.false_eq_true, if_false] at hp
      set L : List Char := c :: tl with hL
      set r := (L.takeWhile isB64Char).length with hr
      have hrlen : r ≤ L.length := (List.takeWhile_sublist _).length_le
      split at hp
      case isTrue hcond =>
        have h5 : 5 ≤ (L.drop r).length := b64Suffix_len _ hcond.2
        have h2 : (L.drop r).length = L.length - r := List.length_drop _ _
        rcases List.mem_cons.mp hp with hph | hpt
        · subst hph; refine ⟨le_refl _, ?_, ?_⟩ <;> simp <;> omega
        · have := ih _ _ p hpt
          have hdl : (L.drop (r + 5)).length = L.length - (r + 5) := List.length_drop _ _
          omega
      case isFalse =>
        by_cases hcase : r + 1 ≤ L.length
        · have := ih _ _ p hp
          have hdl : (L.drop (r + 1)).length = L.length - (r + 1) := List.length_drop _ _
          omega
        · have hnil : L.drop (r + 1) = [] := List.drop_eq_nil_of_le (by omega)
          rw [hnil, b64ScanAux_nil] at hp
          simp at hp

/-- Default element used with `List.getD` on decoded triples. -/
def tripD : Char × Nat × Nat := (' ', 0, 0)

/-- C1 (amended): offset-mapping property of `_find_b64_concat_mapped`:
the reported start offset is exactly the original-text offset at which
the source of the first matched character begins; the reported end
offset is one more than the offset at which the source of the *last*
matched character begins (`amap[e-1]+1`), so it delimits the original
text exactly only when that last character's source is a single original
character — a trailing multi-character escape (`\xHH`, octal, or an
unrecognized pair) producing a base64-alphabet character is truncated. -/
theorem b64_map_endpoints (n : Nat) (parts : List (Nat × List Char))
    (r : Nat × Nat × List Char) (hr : r ∈ findB64Mapped n parts) :
    ∃ k l : Nat, k < (decodeParts parts).length ∧ l < (decodeParts parts).length ∧ k ≤ l ∧
      r.1 = ((decodeParts parts).getD k tripD).2.1 ∧
      r.2.1 = ((decodeParts parts).getD l tripD).2.1 + 1 ∧
      r.2.2 = (((decodeParts parts).drop k).take (l - k + 1)).map (fun t => t.1) ∧
      (((decodeParts parts).getD l tripD).2.2 = ((decodeParts parts).getD l tripD).2.1 + 1 →
        r.2.1 = ((decodeParts parts).getD l tripD).2.2) := by
  simp only [findB64Mapped, List.mem_filterMap] at hr
  obtain ⟨p, hp, heq⟩ := hr
  split at heq
  case isFalse => exact absurd heq (by simp)
  case isTrue hg =>
    have hlenam :
        ((decodeParts parts).map (fun t => t.2.1)).length = (decodeParts parts).length :=
      List.length_map _ _
    have hb := b64ScanAux_bounds n _ _ _ p hp
    have hk : p.1 < (decodeParts parts).length := by omega
    have hl : p.2 - 1 < (decodeParts parts).length := by omega
    have hr12 : p.1 < p.2 := hb.2.1
    have htup := Option.some.inj heq
    refine ⟨p.1, p.2 - 1, hk, hl, by omega, ?_, ?_, ?_, ?_⟩
    · rw [← htup]
      rw [List.getD_eq_getElem _ _ hg.1, List.getD_eq_getElem _ _ hk, List.getElem_map]
    · rw [← htup]
      rw [List.getD_eq_getElem _ _ hg.2, List.getD_eq_getElem _ _ hl, List.getElem_map]
    · rw [← htup]
      show List.take (p.2 - p.1) (List.drop p.1 ((decodeParts parts).map (fun t => t.1))) = _
      rw [← List.map_drop, ← List.map_take]
      congr 2
      omega
    · intro h
      rw [← htup, h]
      rw [List.getD_eq_getElem _ _ hg.2, List.getD_eq_getElem _ _ hl, List.getElem_map]

/-- Claim C1 fails: with minimum base64 length 4 and the two adjacent
literals `"AAAA" "=0, \x32"` (bodies at original offsets 1 and 8), the
decoded concatenation is `AAAA=0, 2`, which the compiled base64 pattern
matches in full (run `AAAA` plus the literal suffix `=0, 2`); the last
matched character `2` decodes from the four-character escape `\x32`
beginning at original offset 12, but the reported span is `[1, 13)` —
the end offset points one past the backslash, not one past the escape
(offset 16), so the span does not delimit the text whose decoding is
the matched run. -/
theorem b64_map_exact_cex :
    ¬ B64MapExact 4 [(1, "AAAA".toList), (8, "=0, \\x32".toList)] := by
  unfold B64MapExact
  decide

theorem b64_map_endpoints_witness :
    ∃ k l : Nat, k < (decodeParts [(1, "AB".toList), (6, "CD=0, 2".toList)]).length ∧
      l < (decodeParts [(1, "AB".toList), (6, "CD=0, 2".toList)]).length ∧ k ≤ l ∧
      (1, 13, "ABCD=0, 2".toList).1 =
        ((decodeParts [(1, "AB".toList), (6, "CD=0, 2".toList)]).getD k tripD).2.1 ∧
      (1, 13, "ABCD=0, 2".toList).2.1 =
        ((decodeParts [(1, "AB".toList), (6, "CD=0, 2".toList)]).getD l tripD).2.1 + 1 ∧
      (1, 13, "ABCD=0, 2".toList).2.2 =
        (((decodeParts [(1, "AB".toList), (6, "CD=0, 2".toList)]).drop k).take (l - k + 1)).map
          (fun t => t.1) ∧
      (((decodeParts [(1, "AB".toList), (6, "CD=0, 2".toList)]).getD l tripD).2.2 =
          ((decodeParts [(1, "AB".toList), (6, "CD=0, 2".toList)]).getD l tripD).2.1 + 1 →
        (1, 13, "ABCD=0, 2".toList).2.1 =
          ((decodeParts [(1, "AB".toList), (6, "CD=0, 2".toList)]).getD l tripD).2.2) :=
  b64_map_endpoints 4 [(1, "AB".toList), (6, "CD=0, 2".toList)]
    (1, 13, "ABCD=0, 2".toList) (by decide)

/-- Characters treated as line boundaries by Python's `str.splitlines`. -/
def isLineBreak (c : Char) : Bool :=
  c = '\n' || c = '\r' || c = '\x0B' || c = '\x0C' ||
  c = Char.ofNat 28 || c = Char.ofNat 29 || c = Char.ofNat 30 ||
  c = Char.ofNat 133 || c = Char.ofNat 8232 || c = Char.ofNat 8233

/-- `str.splitlines` worker: `cur` accumulates the current line in
reverse; `\r\n` counts as a single boundary; a trailing line without a
final boundary is kept, a trailing boundary adds no empty line. -/
def splitlinesAux (cur : List Char) : List Char → List (List Char)
  | [] => if cur.isEmpty then [] else [cur.reverse]
  | [c] => if isLineBreak c then [cur.reverse] else [(c :: cur).reverse]
  | c :: d :: rest =>
    if c = '\r' then
      if d = '\n' then cur.reverse :: splitlinesAux [] rest
      else cur.reverse :: splitlinesAux [] (d :: rest)
    else if isLineBreak c then cur.reverse :: splitlinesAux [] (d :: rest)
    else splitlinesAux (c :: cur) (d :: rest)

/-- `_text_to_lines` = `text.splitlines()`. -/
def splitlines (t : List Char) : List (List Char) := splitlinesAux [] t

/-- `_center_from_index(text, idx)`: one plus the number of newline
characters strictly before `idx`. -/
def centerFromIndex (text : List Char) (idx : Nat) : Nat :=
  (text.take idx).count '\n' + 1

/-- `_window(lines, center_line, n)`: the window of lines
`[max(0, center-n-1), min(len(lines), center+n))` with 1-based line
numbers attached. -/
def window (lines : List (List Char)) (center n : Nat) : List (Nat × List Char) :=
  let a := center - n - 1
  let b := min lines.length (center + n)
  (List.range' a (b - a)).map (fun i => (i + 1, lines.getD i []))

/-- `_overlap(a1,a2,b1,b2)`: interval-intersection length over the
larger of the two interval lengths (0 when the larger length is not
positive), as an exact rational (`Rat.divInt` is exact division of the
two integers). -/
def overlap (a1 a2 b1 b2 : Int) : ℚ :=
  let inter : Int := max 0 (min a2 b2 - max a1 b1 + 1)
  let base : Int := max (a2 - a1 + 1) (b2 - b1 + 1)
  if 0 < base then Rat.divInt inter base else 0

/-- The engine's configuration (the `CFG` surface of the source,
restricted to the fields the processing pipeline reads; the two pattern
thresholds parameterize the external match collection instead).
`allowHit trigger fragment` models `_per_match_allowlisted`: whether the
compiled allowlist pattern registered for `trigger` matches the
fragment (`False` for triggers with no registered pattern). -/
structure Config where
  WINDOW_LINES : Nat
  PER_UNIT_CAP : Nat
  TOTAL_CAP : Nat
  SNIPPET_CHARS : Nat
  PE_PROMOTE_WITH_MID : Nat
  DEDUP_SAME : ℚ
  DEDUP_DIFF : ℚ
  SKIP_MID_WHEN_STRONG_HIGH : Bool
  MID_MIN_WHEN_STRONG_HIGH : Nat
  MID_WHITELIST_STRONG : List String
  PER_TRIGGER_CAP : Nat
  INDIRECT_CONTEXT_ONLY : Bool
  CONTEXT_RADIUS : Nat
  allowHit : String → List Char → Bool

/-- A raw match: (start offset, end offset, matched fragment). -/
abbrev MatchT := Nat × Nat × List Char

/-- One analysis unit together with the per-trigger match lists that
`_collect_matches` produced for its text. -/
structure UnitIn where
  unit_id : String
  name : String
  text : List Char
  high : List (String × List MatchT)
  mid : List (String × List MatchT)

/-- Dictionary lookup `d[k]` with `[]` for a missing key. -/
def lookupM (m : List (String × List MatchT)) (k : String) : List MatchT :=
  match m.find? (fun p => p.1 == k) with
  | some p => p.2
  | none => []

/-- Dictionary membership `k in d`. -/
def hasKey (m : List (String × List MatchT)) (k : String) : Bool :=
  (m.find? (fun p => p.1 == k)).isSome

/-- An output slice (the dictionary built by `_make_slice`). -/
structure Slice where
  unit_id : String
  name : String
  trigger : String
  severity : String
  start_line : Nat
  end_line : Nat
  decomp_slice : List (Nat × List Char)
  evidence : List Char
deriving DecidableEq

/-- `_make_slice`. -/
def makeSlice (cfg : Config) (u : UnitIn) (lines : List (List Char)) (s e : Nat)
    (trigger severity : String) : Slice :=
  let center := centerFromIndex u.text s
  let sl := window lines center cfg.WINDOW_LINES
  { unit_id := u.unit_id
    name := u.name
    trigger := trigger
    severity := severity
    start_line := match sl with | [] => 1 | h :: _ => h.1
    end_line := match sl.getLast? with
                | none => min lines.length (2 * cfg.WINDOW_LINES)
                | some p => p.1
    decomp_slice := sl
    evidence := (u.text.drop (s - cfg.SNIPPET_CHARS)).take
      (min u.text.length (e + cfg.SNIPPET_CHARS) - (s - cfg.SNIPPET_CHARS)) }

/-- The acceptance test of `_insert_dedup`: the candidate is kept iff no
already-accepted slice overlaps it at or above the same-trigger
threshold (same trigger) or the different-trigger threshold (any
trigger). -/
def dedupOk (cfg : Config) (slices : List Slice) (n : Slice) : Bool :=
  slices.all (fun s =>
    !((n.trigger == s.trigger) &&
        decide (cfg.DEDUP_SAME ≤ overlap n.start_line n.end_line s.start_line s.end_line)) &&
    !(decide (cfg.DEDUP_DIFF ≤ overlap n.start_line n.end_line s.start_line s.end_line)))

/-- `_try_add_slice`: refuse when the per-unit or global cap is reached,
otherwise insert with dedup; returns (accepted, new slice list, new
global total). -/
def tryAddSlice (cfg : Config) (slices : List Slice) (item : Slice) (total : Nat) :
    Bool × List Slice × Nat :=
  if cfg.PER_UNIT_CAP ≤ slices.length ∨ cfg.TOTAL_CAP ≤ total then (false, slices, total)
  else if dedupOk cfg slices item then (true, slices ++ [item], total + 1)
  else (false, slices, total)

/-- `_under_trigger_cap`. -/
def underTriggerCap (cnt : String → Nat) (trigger : String) (cap : Nat) : Bool :=
  cnt trigger < cap

/-- The dangerous-API context tokens of `CTX_TOKENS`, lowercased (the
pattern is applied case-insensitively); the trailing `Nt[A-Za-z_]+`
alternative is handled separately in `ctxHit`. -/
def ctxTokens : List (List Char) :=
  ["virtualalloc", "virtualprotect", "getprocaddress", "loadlibrary",
   "writeprocessmemory", "createremotethread", "createprocess",
   "mapviewoffile", "unmapviewoffile", "isdebuggerpresent",
   "checkremotedebuggerpresent"].map String.toList

/-- Whether `xs` starts with `pre`. -/
def listPref : List Char → List Char → Bool
  | [], _ => true
  | _ :: _, [] => false
  | a :: as, b :: bs => a == b && listPref as bs

/-- Search for a dangerous-API token anywhere in a lowercased segment:
one of the literal tokens, or `nt` followed by a letter or underscore
(the `Nt[A-Za-z_]+` alternative). -/
def ctxHit : List Char → Bool
  | [] => false
  | c :: rest =>
    ctxTokens.any (fun t => listPref t (c :: rest)) ||
    (match c :: rest with
     | 'n' :: 't' :: d :: _ => d.isAlpha || d = '_'
     | _ => false) ||
    ctxHit rest

/-- `_context_ok(lines, center_line, radius)`: search for a context
token in the lines within `radius` of the center line (joined with
newlines, lowercased for the case-insensitive search). -/
def contextOk (lines : List (List Char)) (centerLine radius : Nat) : Bool :=
  let a := centerLine - radius - 1
  let b := min lines.length (centerLine + radius)
  let seg := ((lines.drop a).take (b - a)).intersperse ['\n']
  ctxHit ((seg.flatten).map Char.toLower)

/-- Unit-level severity flags. -/
structure SevFlags where
  strong_high : Bool
  pe_high : Bool
deriving DecidableEq

/-- `_severity_policy(found_high_keys, mid_cat_count)`. -/
def severityPolicy (cfg : Config) (found : List String) (midCatCount : Nat) : SevFlags :=
  let strong := (["reg_run", "service_str", "tasks_sched", "inline_syscall"].any
    (fun k => found.contains k))
  let peFlags := (["pe_embed", "mz_pe_hdr"].any (fun k => found.contains k))
  let peHigh := peFlags &&
    ((found.contains "pe_embed" && found.contains "mz_pe_hdr") ||
      decide (cfg.PE_PROMOTE_WITH_MID ≤ midCatCount))
  ⟨strong, peHigh⟩

/-- The fixed catalog order of the high-severity triggers. -/
def highKeysL : List String :=
  ["reg_run", "service_str", "tasks_sched", "inline_syscall", "pe_embed", "mz_pe_hdr"]

/-- The strongly malicious infrastructure triggers. -/
def strongKeysL : List String := ["reg_run", "service_str", "tasks_sched", "inline_syscall"]

/-- The two embedded-executable triggers. -/
def peKeysL : List String := ["pe_embed", "mz_pe_hdr"]

/-- The fixed catalog order of the mid-severity triggers (normal path). -/
def midKeysL : List String :=
  ["b64_blob", "hex_array", "anti_debug", "indirect_call", "cast_call",
   "xor_loop", "xor_assign", "rol_ror_loop", "com_sched"]

/-- The severity assigned in the high-trigger processing loop:
`"high"` for the four infrastructure triggers, and for the two
embedded-executable triggers only when `pe_high` is set; `"mid"`
otherwise. -/
def hsev (key : String) (peHigh : Bool) : String :=
  if key ∈ strongKeysL ∨ (key ∈ peKeysL ∧ peHigh = true) then "high" else "mid"

/-- Mutable per-unit scan state: accepted slices, per-trigger counters,
global running total. -/
structure UState where
  slices : List Slice
  cnt : String → Nat
  total : Nat

/-- Accept one slice: `_try_add_slice` followed by the conditional
per-trigger counter bump. -/
def stepAdd (cfg : Config) (key : String) (item : Slice) (st : UState) : UState × Bool :=
  let r := tryAddSlice cfg st.slices item st.total
  (⟨r.2.1, (if r.1 then fun t => if t == key then st.cnt t + 1 else st.cnt t else st.cnt), r.2.2⟩,
    r.1)

/-- The inner match loop of the high-trigger phase of `process_units`. -/
def highMatchLoop (cfg : Config) (u : UnitIn) (lines : List (List Char)) (peHigh : Bool)
    (key : String) : List MatchT → UState → UState
  | [], st => st
  | (s, e, frag) :: rest, st =>
    if cfg.TOTAL_CAP ≤ st.total ∨ cfg.PER_UNIT_CAP ≤ st.slices.length then st
    else if cfg.allowHit key frag then highMatchLoop cfg u lines peHigh key rest st
    else if !underTriggerCap st.cnt key cfg.PER_TRIGGER_CAP then
      highMatchLoop cfg u lines peHigh key rest st
    else
      highMatchLoop cfg u lines peHigh key rest
        (stepAdd cfg key (makeSlice cfg u lines s e key (hsev key peHigh)) st).1

/-- The outer key loop of the high-trigger phase. -/
def highKeyLoop (cfg : Config) (u : UnitIn) (lines : List (List Char)) (peHigh : Bool) :
    List String → UState → UState
  | [], st => st
  | k :: ks, st =>
    if cfg.TOTAL_CAP ≤ st.total ∨ cfg.PER_UNIT_CAP ≤ st.slices.length then st
    else if !hasKey u.high k then highKeyLoop cfg u lines peHigh ks st
    else highKeyLoop cfg u lines peHigh ks (highMatchLoop cfg u lines peHigh k (lookupM u.high k) st)

/-- The inner match loop of the normal mid-trigger phase. -/
def midMatchLoop (cfg : Config) (u : UnitIn) (lines : List (List Char)) (key : String) :
    List MatchT → UState → UState
  | [], st => st
  | (s, e, _) :: rest, st =>
    if cfg.TOTAL_CAP ≤ st.total ∨ cfg.PER_UNIT_CAP ≤ st.slices.length then st
    else if key == "indirect_call" && cfg.INDIRECT_CONTEXT_ONLY &&
        !contextOk lines (centerFromIndex u.text s) cfg.CONTEXT_RADIUS then
      midMatchLoop cfg u lines key rest st
    else if !underTriggerCap st.cnt key cfg.PER_TRIGGER_CAP then
      midMatchLoop cfg u lines key rest st
    else
      midMatchLoop cfg u lines key rest
        (stepAdd cfg key (makeSlice cfg u lines s e key "mid") st).1

/-- The outer key loop of the normal mid-trigger phase. -/
def midKeyLoop (cfg : Config) (u : UnitIn) (lines : List (List Char)) :
    List String → UState → UState
  | [], st => st
  | k :: ks, st =>
    if cfg.TOTAL_CAP ≤ st.total ∨ cfg.PER_UNIT_CAP ≤ st.slices.length then st
    else if !hasKey u.mid k then midKeyLoop cfg u lines ks st
    else midKeyLoop cfg u lines ks (midMatchLoop cfg u lines k (lookupM u.mid k) st)

/-- The inner match loop of the strong-high restricted mid phase:
bounded by the quota `min(MID_MIN_WHEN_STRONG_HIGH, mid_budget)` instead
of the per-unit/total break. -/
def strongMidMatchLoop (cfg : Config) (u : UnitIn) (lines : List (List Char)) (key : String)
    (quota : Nat) : List MatchT → UState → Nat → UState × Nat
  | [], st, added => (st, added)
  | (s, e, _) :: rest, st, added =>
    if quota ≤ added then (st, added)
    else if key == "indirect_call" && cfg.INDIRECT_CONTEXT_ONLY &&
        !contextOk lines (centerFromIndex u.text s) cfg.CONTEXT_RADIUS then
      strongMidMatchLoop cfg u lines key quota rest st added
    else if !underTriggerCap st.cnt key cfg.PER_TRIGGER_CAP then
      strongMidMatchLoop cfg u lines key quota rest st added
    else
      let r := stepAdd cfg key (makeSlice cfg u lines s e key "mid") st
      strongMidMatchLoop cfg u lines key quota rest r.1 (if r.2 then added + 1 else added)

/-- The outer key loop of the strong-high restricted mid phase. -/
def strongMidKeyLoop (cfg : Config) (u : UnitIn) (lines : List (List Char)) (quota : Nat) :
    List String → UState → Nat → UState × Nat
  | [], st, added => (st, added)
  | k :: ks, st, added =>
    if !hasKey u.mid k then strongMidKeyLoop cfg u lines quota ks st added
    else
      let r := strongMidMatchLoop cfg u lines k quota (lookupM u.mid k) st added
      if quota ≤ r.2 then r else strongMidKeyLoop cfg u lines quota ks r.1 r.2

/-- `set(k for k, v in high_matches.items() if v)`. -/
def foundHighOf (u : UnitIn) : List String :=
  (u.high.filter (fun p => !p.2.isEmpty)).map (fun p => p.1)

/-- `sum(1 for k, v in mid_matches.items() if v)`. -/
def midCatOf (u : UnitIn) : Nat :=
  (u.mid.filter (fun p => !p.2.isEmpty)).length

/-- The unit's derived `pe_high` flag. -/
def peHighOf (cfg : Config) (u : UnitIn) : Bool :=
  (severityPolicy cfg (foundHighOf u) (midCatOf u)).pe_high

/-- The unit's derived `strong_high` flag. -/
def strongHighOf (cfg : Config) (u : UnitIn) : Bool :=
  (severityPolicy cfg (foundHighOf u) (midCatOf u)).strong_high

/-- The keys kept for the strong-high restricted mid phase:
the fixed candidate list filtered by the configured whitelist. -/
def strongKeepL (cfg : Config) : List String :=
  ["b64_blob", "anti_debug", "hex_array", "indirect_call", "xor_loop", "xor_assign"].filter
    (fun k => cfg.MID_WHITELIST_STRONG.contains k)

/-- Initial per-unit state over a running global total. -/
def initState (base : Nat) : UState := ⟨[], fun _ => 0, base⟩

/-- The state after the high-trigger phase of one unit. -/
def highPhaseOf (cfg : Config) (u : UnitIn) (base : Nat) : UState :=
  highKeyLoop cfg u (splitlines u.text) (peHighOf cfg u) highKeysL (initState base)

/-- The state after the mid-trigger phase of one unit. -/
def midPhaseOf (cfg : Config) (u : UnitIn) (st1 : UState) : UState :=
  let midBudget := cfg.PER_UNIT_CAP - st1.slices.length
  if 0 < midBudget then
    if strongHighOf cfg u && cfg.SKIP_MID_WHEN_STRONG_HIGH then
      (strongMidKeyLoop cfg u (splitlines u.text) (min cfg.MID_MIN_WHEN_STRONG_HIGH midBudget)
        (strongKeepL cfg) st1 0).1
    else midKeyLoop cfg u (splitlines u.text) midKeysL st1
  else st1

/-- Scan one unit (the per-unit body of `process_units`), returning its
accepted slices in insertion order and the updated global total. -/
def processUnit (cfg : Config) (u : UnitIn) (base : Nat) : List Slice × Nat :=
  let st2 := midPhaseOf cfg u (highPhaseOf cfg u base)
  (st2.slices, st2.total)

/-- Slice order used for the final per-unit sort: ascending start line. -/
def byStart (a b : Slice) : Prop := a.start_line ≤ b.start_line

instance : DecidableRel byStart := fun a b => Nat.decLe a.start_line b.start_line

instance : IsTotal Slice byStart := ⟨fun a b => Nat.le_total a.start_line b.start_line⟩

instance : IsTrans Slice byStart := ⟨fun _ _ _ h1 h2 => Nat.le_trans h1 h2⟩

/-- `slices.sort(key=lambda x: x["start_line"])`: a stable sort by
start line. -/
def sortSlices (l : List Slice) : List Slice := List.insertionSort byStart l

/-- One emitted unit result. -/
structure UnitOut where
  unit_id : String
  name : String
  slices : List Slice
deriving DecidableEq

/-- The batch loop of `process_units`: stop when the global cap is
reached, scan each unit, and emit the units that produced slices with
their slices sorted by start line.  Returns the emitted unit results
and the final total slice count. -/
def processUnitsAux (cfg : Config) : List UnitIn → Nat → List UnitOut × Nat
  | [], total => ([], total)
  | u :: us, total =>
    if cfg.TOTAL_CAP ≤ total then ([], total)
    else
      let r := processUnit cfg u total
      let rest := processUnitsAux cfg us r.2
      if r.1.isEmpty then rest
      else (⟨u.unit_id, u.name, sortSlices r.1⟩ :: rest.1, rest.2)

/-- `process_units`. -/
def processUnits (cfg : Config) (units : List UnitIn) : List UnitOut × Nat :=
  processUnitsAux cfg units 0

/-- `DEFAULT_ALLOW`: the built-in default allowlist patterns. -/
def DEFAULT_ALLOW : List (String × List String) :=
  [("reg_run", ["OneDrive", "SecurityHealth", "Windows Defender", "Teams", "Slack",
    "NVIDIA", "Audio", "HP", "Logi", "Razer", "Adobe"])]

/-- `DEFAULT_ALLOW.get(k, [])`. -/
def allowLookup (k : String) : List String :=
  match DEFAULT_ALLOW.find? (fun p => p.1 == k) with
  | some p => p.2
  | none => []

/-- `_load_allowlist` on a well-formed override object (a mapping from
trigger names to lists of pattern strings): for each key of the
override, the default patterns for that key followed by the override's
nonempty pattern strings; entries with an empty final list are dropped,
and the result *replaces* the previous allowlist. -/
def loadAllowlist (obj : List (String × List String)) : List (String × List String) :=
  (obj.map (fun p => (p.1, allowLookup p.1 ++ p.2.filter (fun s => s ≠ "")))).filter
    (fun p => !p.2.isEmpty)

/-- Number of accepted slices carrying a given trigger. -/
def countTrig (slices : List Slice) (t : String) : Nat :=
  (slices.filter (fun x => x.trigger == t)).length

/-- The pairwise dedup relation maintained by `_insert_dedup` under the
suppress-on-overlap policy: two accepted slices of the same trigger
overlap strictly below the same-trigger threshold, and any two accepted
slices overlap strictly below the different-trigger threshold. -/
def PairP (cfg : Config) (a b : Slice) : Prop :=
  (a.trigger = b.trigger →
    overlap a.start_line a.end_line b.start_line b.end_line < cfg.DEDUP_SAME) ∧
  overlap a.start_line a.end_line b.start_line b.end_line < cfg.DEDUP_DIFF

theorem overlap_comm (a1 a2 b1 b2 : Int) : overlap a1 a2 b1 b2 = overlap b1 b2 a1 a2 := by
  unfold overlap
  rw [min_comm a2 b2, max_comm a1 b1, max_comm (a2 - a1 + 1) (b2 - b1 + 1)]

theorem pairP_symm (cfg : Config) {a b : Slice} (h : PairP cfg a b) : PairP cfg b a := by
  obtain ⟨h1, h2⟩ := h
  refine ⟨fun he => ?_, ?_⟩
  · rw [overlap_comm]; exact h1 he.symm
  · rw [overlap_comm]; exact h2

theorem countTrig_append (l1 l2 : List Slice) (t : String) :
    countTrig (l1 ++ l2) t = countTrig l1 t + countTrig l2 t := by
  unfold countTrig
  rw [List.filter_append, List.length_append]

theorem dedupOk_pairP (cfg : Config) (slices : List Slice) (item : Slice)
    (h : dedupOk cfg slices item = true) : ∀ s ∈ slices, PairP cfg s item := by
  intro s hs
  have hb := (List.all_eq_true.mp h) s hs
  simp only [Bool.and_eq_true, Bool.not_eq_true'] at hb
  obtain ⟨hb1, hb2⟩ := hb
  constructor
  · intro he
    rw [overlap_comm]
    rcases Bool.and_eq_false_iff.mp hb1 with h' | h'
    · exact absurd (by simp [he]) (by simp [h'] : ¬(item.trigger == s.trigger) = true)
    · have := of_decide_eq_false h'
      exact lt_of_not_le this
  · rw [overlap_comm]
    exact lt_of_not_le (of_decide_eq_false hb2)

/-- The per-unit scan invariant: the running total counts exactly the
accepted slices on top of the incoming batch total, the per-unit and
global caps hold, the per-trigger counters agree with the slice list and
respect the per-trigger cap, the dedup relation holds pairwise, and
every accepted slice satisfies `Q`. -/
def ScanInv (cfg : Config) (base : Nat) (Q : Slice → Prop) (st : UState) : Prop :=
  st.total = base + st.slices.length ∧
  st.slices.length ≤ cfg.PER_UNIT_CAP ∧
  st.total ≤ cfg.TOTAL_CAP ∧
  (∀ t, countTrig st.slices t = st.cnt t) ∧
  (∀ t, st.cnt t ≤ cfg.PER_TRIGGER_CAP) ∧
  List.Pairwise (PairP cfg) st.slices ∧
  (∀ x ∈ st.slices, Q x)

theorem scanInv_mono (cfg : Config) (base : Nat) (Q Q' : Slice → Prop) (st : UState)
    (h : ScanInv cfg base Q st) (himp : ∀ x ∈ st.slices, Q' x) : ScanInv cfg base Q' st :=
  ⟨h.1, h.2.1, h.2.2.1, h.2.2.2.1, h.2.2.2.2.1, h.2.2.2.2.2.1, himp⟩

theorem stepAdd_inv (cfg : Config) (base : Nat) (Q : Slice → Prop) (key : String)
    (item : Slice) (st : UState) (hInv : ScanInv cfg base Q st)
    (hcap : underTriggerCap st.cnt key cfg.PER_TRIGGER_CAP = true)
    (htrig : item.trigger = key) (hQ : Q item) :
    ScanInv cfg base Q (stepAdd cfg key item st).1 := by
  obtain ⟨h1, h2, h3, h4, h5, h6, h7⟩ := hInv
  have hcap' : st.cnt key < cfg.PER_TRIGGER_CAP := by
    simpa [underTriggerCap] using hcap
  by_cases hc : cfg.PER_UNIT_CAP ≤ st.slices.length ∨ cfg.TOTAL_CAP ≤ st.total
  · have hs : (stepAdd cfg key item st).1 = ⟨st.slices, st.cnt, st.total⟩ := by
      simp [stepAdd, tryAddSlice, hc]
    rw [hs]
    exact ⟨h1, h2, h3, h4, h5, h6, h7⟩
  · push_neg at hc
    by_cases hd : dedupOk cfg st.slices item = true
    · have hs : (stepAdd cfg key item st).1 =
        ⟨st.slices ++ [item], fun t => if t == key then st.cnt t + 1 else st.cnt t,
          st.total + 1⟩ := by
        simp [stepAdd, tryAddSlice, hc.1.not_le, hc.2.not_le, hd]
      rw [hs]
      refine ⟨?_, ?_, ?_, ?_, ?_, ?_, ?_⟩
      · dsimp only
        simp only [List.length_append, List.length_singleton]
        omega
      · dsimp only
        simp only [List.length_append, List.length_singleton]
        omega
      · dsimp only
        omega
      · intro t
        dsimp only
        rw [countTrig_append]
        have hone : countTrig [item] t = if item.trigger == t then 1 else 0 := by
          unfold countTrig
          by_cases hti : item.trigger = t
          · simp [List.filter_cons, hti]
          · simp [List.filter_cons, hti]
        by_cases ht : t = key
        · subst ht
          simp only [hone, htrig, beq_self_eq_true, if_true]
          rw [h4]
        · have hne1 : (item.trigger == t) = false := by
            simp only [beq_eq_false_iff_ne, ne_eq, htrig]
            exact fun hh => ht hh.symm
          have hne2 : (t == key) = false := by simpa using ht
          simp only [hone, hne1, hne2, if_false]
          rw [h4]
          simp
      · intro t
        dsimp only
        by_cases ht : t = key
        · subst ht; simp only [beq_self_eq_true, if_true]; omega
        · have hne2 : (t == key) = false := by simpa using ht
          simp only [hne2, if_false]; exact h5 t
      · dsimp only
        rw [List.pairwise_append]
        refine ⟨h6, List.pairwise_singleton _ _, fun a ha b hb => ?_⟩
        rw [List.mem_singleton] at hb
        subst hb
        exact dedupOk_pairP cfg _ _ hd a ha
      · intro x hx
        dsimp only at hx
        rcases List.mem_append.mp hx with hx | hx
        · exact h7 x hx
        · rw [List.mem_singleton] at hx; subst hx; exact hQ
    · have hs : (stepAdd cfg key item st).1 = ⟨st.slices, st.cnt, st.total⟩ := by
        simp [stepAdd, tryAddSlice, hc.1.not_le, hc.2.not_le, hd]
      rw [hs]
      exact ⟨h1, h2, h3, h4, h5, h6, h7⟩

theorem highMatchLoop_inv (cfg : Config) (u : UnitIn) (lines : List (List Char)) (peHigh : Bool)
    (key : String) (base : Nat) (Q : Slice → Prop) (ms : List MatchT) :
    ∀ st, ScanInv cfg base Q st →
    (∀ m ∈ ms, Q (makeSlice cfg u lines m.1 m.2.1 key (hsev key peHigh))) →
    ScanInv cfg base Q (highMatchLoop cfg u lines peHigh key ms st) := by
  induction ms with
  | nil => intro st h _; simpa [highMatchLoop] using h
  | cons m rest ih =>
    intro st hInv hQ
    obtain ⟨s, e, frag⟩ := m
    have hQ' : ∀ m ∈ rest, Q (makeSlice cfg u lines m.1 m.2.1 key (hsev key peHigh)) :=
      fun m hm => hQ m (List.mem_cons_of_mem _ hm)
    rw [highMatchLoop]
    by_cases h1 : cfg.TOTAL_CAP ≤ st.total ∨ cfg.PER_UNIT_CAP ≤ st.slices.length
    · rw [if_pos h1]; exact hInv
    · rw [if_neg h1]
      by_cases h2 : cfg.allowHit key frag = true
      · rw [if_pos h2]; exact ih st hInv hQ'
      · rw [if_neg h2]
        by_cases h3 : (!underTriggerCap st.cnt key cfg.PER_TRIGGER_CAP) = true
        · rw [if_pos h3]; exact ih st hInv hQ'
        · rw [if_neg h3]
          have hcap : underTriggerCap st.cnt key cfg.PER_TRIGGER_CAP = true := by
            simpa using h3
          exact ih _ (stepAdd_inv cfg base Q key _ st hInv hcap rfl
            (hQ (s, e, frag) (List.mem_cons_self _ _))) hQ'

theorem highKeyLoop_inv (cfg : Config) (u : UnitIn) (lines : List (List Char)) (peHigh : Bool)
    (base : Nat) (Q : Slice → Prop) (keys : List String) :
    ∀ st, ScanInv cfg base Q st →
    (∀ k ∈ keys, ∀ m ∈ lookupM u.high k, Q (makeSlice cfg u lines m.1 m.2.1 k (hsev k peHigh))) →
    ScanInv cfg base Q (highKeyLoop cfg u lines peHigh keys st) := by
  induction keys with
  | nil => intro st h _; simpa [highKeyLoop] using h
  | cons k ks ih =>
    intro st hInv hQ
    have hQ' : ∀ k' ∈ ks, ∀ m ∈ lookupM u.high k',
        Q (makeSlice cfg u lines m.1 m.2.1 k' (hsev k' peHigh)) :=
      fun k' hk' => hQ k' (List.mem_cons_of_mem _ hk')
    rw [highKeyLoop]
    by_cases h1 : cfg.TOTAL_CAP ≤ st.total ∨ cfg.PER_UNIT_CAP ≤ st.slices.length
    · rw [if_pos h1]; exact hInv
    · rw [if_neg h1]
      by_cases h2 : (!hasKey u.high k) = true
      · rw [if_pos h2]; exact ih st hInv hQ'
      · rw [if_neg h2]
        exact ih _ (highMatchLoop_inv cfg u lines peHigh k base Q _ st hInv
          (hQ k (List.mem_cons_self _ _))) hQ'

theorem midMatchLoop_inv (cfg : Config) (u : UnitIn) (lines : List (List Char)) (key : String)
    (base : Nat) (Q : Slice → Prop) (ms : List MatchT) :
    ∀ st, ScanInv cfg base Q st →
    (∀ m ∈ ms,
      (key == "indirect_call" && cfg.INDIRECT_CONTEXT_ONLY &&
        !contextOk lines (centerFromIndex u.text m.1) cfg.CONTEXT_RADIUS) = false →
      Q (makeSlice cfg u lines m.1 m.2.1 key "mid")) →
    ScanInv cfg base Q (midMatchLoop cfg u lines key ms st) := by
  induction ms with
  | nil => intro st h _; simpa [midMatchLoop] using h
  | cons m rest ih =>
    intro st hInv hQ
    obtain ⟨s, e, frag⟩ := m
    have hQ' := fun m hm => hQ m (List.mem_cons_of_mem _ hm)
    rw [midMatchLoop]
    by_cases h1 : cfg.TOTAL_CAP ≤ st.total ∨ cfg.PER_UNIT_CAP ≤ st.slices.length
    · rw [if_pos h1]; exact hInv
    · rw [if_neg h1]
      by_cases h2 : (key == "indirect_call" && cfg.INDIRECT_CONTEXT_ONLY &&
          !contextOk lines (centerFromIndex u.text s) cfg.CONTEXT_RADIUS) = true
      · rw [if_pos h2]; exact ih st hInv hQ'
      · rw [if_neg h2]
        by_cases h3 : (!underTriggerCap st.cnt key cfg.PER_TRIGGER_CAP) = true
        · rw [if_pos h3]; exact ih st hInv hQ'
        · rw [if_neg h3]
          have hcap : underTriggerCap st.cnt key cfg.PER_TRIGGER_CAP = true := by
            simpa using h3
          exact ih _ (stepAdd_inv cfg base Q key _ st hInv hcap rfl
            (hQ (s, e, frag) (List.mem_cons_self _ _) (by simpa using h2))) hQ'

theorem midKeyLoop_inv (cfg : Config) (u : UnitIn) (lines : List (List Char))
    (base : Nat) (Q : Slice → Prop) (keys : List String) :
    ∀ st, ScanInv cfg base Q st →
    (∀ k ∈ keys, ∀ m ∈ lookupM u.mid k,
      (k == "indirect_call" && cfg.INDIRECT_CONTEXT_ONLY &&
        !contextOk lines (centerFromIndex u.text m.1) cfg.CONTEXT_RADIUS) = false →
      Q (makeSlice cfg u lines m.1 m.2.1 k "mid")) →
    ScanInv cfg base Q (midKeyLoop cfg u lines keys st) := by
  induction keys with
  | nil => intro st h _; simpa [midKeyLoop] using h
  | cons k ks ih =>
    intro st hInv hQ
    have hQ' := fun k' hk' => hQ k' (List.mem_cons_of_mem _ hk')
    rw [midKeyLoop]
    by_cases h1 : cfg.TOTAL_CAP ≤ st.total ∨ cfg.PER_UNIT_CAP ≤ st.slices.length
    · rw [if_pos h1]; exact hInv
    · rw [if_neg h1]
      by_cases h2 : (!hasKey u.mid k) = true
      · rw [if_pos h2]; exact ih st hInv hQ'
      · rw [if_neg h2]
        exact ih _ (midMatchLoop_inv cfg u lines k base Q _ st hInv
          (hQ k (List.mem_cons_self _ _))) hQ'

theorem strongMidMatchLoop_inv (cfg : Config) (u : UnitIn) (lines : List (List Char))
    (key : String) (quota : Nat) (base : Nat) (Q : Slice → Prop) (ms : List MatchT) :
    ∀ st added, ScanInv cfg base Q st →
    (∀ m ∈ ms,
      (key == "indirect_call" && cfg.INDIRECT_CONTEXT_ONLY &&
        !contextOk lines (centerFromIndex u.text m.1) cfg.CONTEXT_RADIUS) = false →
      Q (makeSlice cfg u lines m.1 m.2.1 key "mid")) →
    ScanInv cfg base Q (strongMidMatchLoop cfg u lines key quota ms st added).1 := by
  induction ms with
  | nil => intro st added h _; simpa [strongMidMatchLoop] using h
  | cons m rest ih =>
    intro st added hInv hQ
    obtain ⟨s, e, frag⟩ := m
    have hQ' := fun m hm => hQ m (List.mem_cons_of_mem _ hm)
    rw [strongMidMatchLoop]
    by_cases h1 : quota ≤ added
    · rw [if_pos h1]; exact hInv
    · rw [if_neg h1]
      by_cases h2 : (key == "indirect_call" && cfg.INDIRECT_CONTEXT_ONLY &&
          !contextOk lines (centerFromIndex u.text s) cfg.CONTEXT_RADIUS) = true
      · rw [if_pos h2]; exact ih st added hInv hQ'
      · rw [if_neg h2]
        by_cases h3 : (!underTriggerCap st.cnt key cfg.PER_TRIGGER_CAP) = true
        · rw [if_pos h3]; exact ih st added hInv hQ'
        · rw [if_neg h3]
          have hcap : underTriggerCap st.cnt key cfg.PER_TRIGGER_CAP = true := by
            simpa using h3
          exact ih _ _ (stepAdd_inv cfg base Q key _ st hInv hcap rfl
            (hQ (s, e, frag) (List.mem_cons_self _ _) (by simpa using h2))) hQ'

theorem strongMidKeyLoop_inv (cfg : Config) (u : UnitIn) (lines : List (List Char))
    (quota : Nat) (base : Nat) (Q : Slice → Prop) (keys : List String) :
    ∀ st added, ScanInv cfg base Q st →
    (∀ k ∈ keys, ∀ m ∈ lookupM u.mid k,
      (k == "indirect_call" && cfg.INDIRECT_CONTEXT_ONLY &&
        !contextOk lines (centerFromIndex u.text m.1) cfg.CONTEXT_RADIUS) = false →
      Q (makeSlice cfg u lines m.1 m.2.1 k "mid")) →
    ScanInv cfg base Q (strongMidKeyLoop cfg u lines quota keys st added).1 := by
  induction keys with
  | nil => intro st added h _; simpa [strongMidKeyLoop] using h
  | cons k ks ih =>
    intro st added hInv hQ
    have hQ' := fun k' hk' => hQ k' (List.mem_cons_of_mem _ hk')
    rw [strongMidKeyLoop]
    by_cases h2 : (!hasKey u.mid k) = true
    · rw [if_pos h2]; exact ih st added hInv hQ'
    · rw [if_neg h2]
      have hr := strongMidMatchLoop_inv cfg u lines k quota base Q (lookupM u.mid k) st added
        hInv (hQ k (List.mem_cons_self _ _))
      by_cases h3 : quota ≤ (strongMidMatchLoop cfg u lines k quota (lookupM u.mid k) st added).2
      · rw [if_pos h3]; exact hr
      · rw [if_neg h3]; exact ih _ _ hr hQ'

/-- Provenance of a slice accepted in the high-trigger phase: it was
built by `_make_slice` from a collected match of one of the six high
triggers, with the severity assigned by the high loop. -/
def FromHigh (cfg : Config) (u : UnitIn) (x : Slice) : Prop :=
  ∃ k m, k ∈ highKeysL ∧ m ∈ lookupM u.high k ∧
    x = makeSlice cfg u (splitlines u.text) m.1 m.2.1 k (hsev k (peHighOf cfg u))

/-- Provenance of a slice accepted in either mid-trigger phase: it was
built by `_make_slice` with severity `"mid"` from a collected match of
one of the nine mid triggers, and if it is an `indirect_call` slice
under context gating then the line-radius context check succeeded. -/
def FromMid (cfg : Config) (u : UnitIn) (x : Slice) : Prop :=
  ∃ k m, k ∈ midKeysL ∧ m ∈ lookupM u.mid k ∧
    x = makeSlice cfg u (splitlines u.text) m.1 m.2.1 k "mid" ∧
    (k = "indirect_call" → cfg.INDIRECT_CONTEXT_ONLY = true →
      contextOk (splitlines u.text) (centerFromIndex u.text m.1) cfg.CONTEXT_RADIUS = true)

theorem initState_inv (cfg : Config) (base : Nat) (Q : Slice → Prop)
    (hbase : base ≤ cfg.TOTAL_CAP) : ScanInv cfg base Q (initState base) := by
  refine ⟨by simp [initState], by simp [initState], by simpa [initState] using hbase,
    ?_, ?_, ?_, ?_⟩
  · intro t; simp [initState, countTrig]
  · intro t; simp [initState]
  · simp [initState]
  · simp [initState]

theorem strongKeep_sub_mid (cfg : Config) : ∀ k ∈ strongKeepL cfg, k ∈ midKeysL := by
  intro k hk
  have hk6 := (List.mem_filter.mp hk).1
  simp only [List.mem_cons, List.not_mem_nil, or_false] at hk6
  rcases hk6 with rfl | rfl | rfl | rfl | rfl | rfl <;> decide

theorem highPhase_inv (cfg : Config) (u : UnitIn) (base : Nat)
    (hbase : base ≤ cfg.TOTAL_CAP) :
    ScanInv cfg base (FromHigh cfg u) (highPhaseOf cfg u base) := by
  refine highKeyLoop_inv cfg u (splitlines u.text) (peHighOf cfg u) base (FromHigh cfg u)
    highKeysL (initState base) (initState_inv cfg base _ hbase) ?_
  intro k hk m hm
  exact ⟨k, m, hk, hm, rfl⟩

theorem midPhase_inv (cfg : Config) (u : UnitIn) (base : Nat)
    (hbase : base ≤ cfg.TOTAL_CAP) :
    ScanInv cfg base (fun x => x ∈ (highPhaseOf cfg u base).slices ∨ FromMid cfg u x)
      (midPhaseOf cfg u (highPhaseOf cfg u base)) := by
  have h1 : ScanInv cfg base (fun x => x ∈ (highPhaseOf cfg u base).slices ∨ FromMid cfg u x)
      (highPhaseOf cfg u base) :=
    scanInv_mono cfg base _ _ _ (highPhase_inv cfg u base hbase) (fun x hx => Or.inl hx)
  unfold midPhaseOf
  by_cases hb : 0 < cfg.PER_UNIT_CAP - (highPhaseOf cfg u base).slices.length
  · rw [if_pos hb]
    by_cases hsg : (strongHighOf cfg u && cfg.SKIP_MID_WHEN_STRONG_HIGH) = true
    · rw [if_pos hsg]
      refine strongMidKeyLoop_inv cfg u (splitlines u.text) _ base _ (strongKeepL cfg) _ 0 h1 ?_
      intro k hk m hm hg
      refine Or.inr ⟨k, m, strongKeep_sub_mid cfg k hk, hm, rfl, ?_⟩
      intro hkic hco
      subst hkic
      simpa [hco] using hg
    · rw [if_neg hsg]
      refine midKeyLoop_inv cfg u (splitlines u.text) base _ midKeysL _ h1 ?_
      intro k hk m hm hg
      refine Or.inr ⟨k, m, hk, hm, rfl, ?_⟩
      intro hkic hco
      subst hkic
      simpa [hco] using hg
  · rw [if_neg hb]
    exact h1

theorem processUnit_provenance (cfg : Config) (u : UnitIn) (base : Nat)
    (hbase : base ≤ cfg.TOTAL_CAP) :
    ∀ x ∈ (processUnit cfg u base).1, FromHigh cfg u x ∨ FromMid cfg u x := by
  intro x hx
  have h2 := midPhase_inv cfg u base hbase
  rcases h2.2.2.2.2.2.2 x hx with hx1 | hx2
  · exact Or.inl ((highPhase_inv cfg u base hbase).2.2.2.2.2.2 x hx1)
  · exact Or.inr hx2

theorem processUnit_caps (cfg : Config) (u : UnitIn) (base : Nat)
    (hbase : base ≤ cfg.TOTAL_CAP) :
    (processUnit cfg u base).2 = base + (processUnit cfg u base).1.length ∧
    (processUnit cfg u base).2 ≤ cfg.TOTAL_CAP ∧
    (processUnit cfg u base).1.length ≤ cfg.PER_UNIT_CAP ∧
    (∀ t, countTrig (processUnit cfg u base).1 t ≤ cfg.PER_TRIGGER_CAP) ∧
    List.Pairwise (PairP cfg) (processUnit cfg u base).1 := by
  have h2 := midPhase_inv cfg u base hbase
  refine ⟨h2.1, h2.2.2.1, h2.2.1, ?_, h2.2.2.2.2.2.1⟩
  intro t
  show countTrig (midPhaseOf cfg u (highPhaseOf cfg u base)).slices t ≤ cfg.PER_TRIGGER_CAP
  rw [h2.2.2.2.1 t]
  exact h2.2.2.2.2.1 t

theorem sortSlices_perm (l : List Slice) : (sortSlices l).Perm l :=
  List.perm_insertionSort _ l

theorem sortSlices_length (l : List Slice) : (sortSlices l).length = l.length :=
  (sortSlices_perm l).length_eq

theorem countTrig_perm {l1 l2 : List Slice} (h : l1.Perm l2) (t : String) :
    countTrig l1 t = countTrig l2 t := by
  unfold countTrig
  rw [← List.countP_eq_length_filter, ← List.countP_eq_length_filter]
  exact h.countP_eq _

theorem processUnitsAux_spec (cfg : Config) :
    ∀ units total, total ≤ cfg.TOTAL_CAP →
    (processUnitsAux cfg units total).2 =
      total + (((processUnitsAux cfg units total).1.map (fun o => o.slices.length)).sum) ∧
    (processUnitsAux cfg units total).2 ≤ cfg.TOTAL_CAP ∧
    ∀ o ∈ (processUnitsAux cfg units total).1, ∃ u ∈ units, ∃ base, base ≤ cfg.TOTAL_CAP ∧
      o.unit_id = u.unit_id ∧ o.name = u.name ∧
      o.slices = sortSlices (processUnit cfg u base).1 := by
  intro units
  induction units with
  | nil =>
    intro total htot
    refine ⟨by simp [processUnitsAux], by simpa [processUnitsAux] using htot, ?_⟩
    simp [processUnitsAux]
  | cons u us ih =>
    intro total htot
    rw [processUnitsAux]
    by_cases hc : cfg.TOTAL_CAP ≤ total
    · rw [if_pos hc]
      exact ⟨by simp, htot, by simp⟩
    · rw [if_neg hc]
      dsimp only
      have hcap := processUnit_caps cfg u total htot
      have hih := ih (processUnit cfg u total).2 hcap.2.1
      by_cases he : (processUnit cfg u total).1.isEmpty = true
      · rw [if_pos he]
        have hlen0 : (processUnit cfg u total).1.length = 0 := by
          simpa [List.isEmpty_iff_length_eq_zero] using he
        refine ⟨?_, hih.2.1, ?_⟩
        · rw [hih.1]; omega
        · intro o ho
          obtain ⟨u', hu', base, hb, h1, h2, h3⟩ := hih.2.2 o ho
          exact ⟨u', List.mem_cons_of_mem _ hu', base, hb, h1, h2, h3⟩
      · rw [if_neg he]
        refine ⟨?_, hih.2.1, ?_⟩
        · dsimp only
          rw [hih.1, List.map_cons, List.sum_cons]
          dsimp only
          rw [sortSlices_length]
          omega
        · intro o ho
          dsimp only at ho
          rcases List.mem_cons.mp ho with rfl | ho'
          · exact ⟨u, List.mem_cons_self _ _, total, htot, rfl, rfl, rfl⟩
          · obtain ⟨u', hu', base, hb, h1, h2, h3⟩ := hih.2.2 o ho'
            exact ⟨u', List.mem_cons_of_mem _ hu', base, hb, h1, h2, h3⟩

/-- C3: every emitted unit result respects the per-unit cap, every
trigger's slice count within a unit respects the per-trigger cap, and
the total number of emitted slices over the whole batch respects the
global cap. -/
theorem budget_caps (cfg : Config) (units : List UnitIn) :
    (∀ o ∈ (processUnits cfg units).1,
      o.slices.length ≤ cfg.PER_UNIT_CAP ∧
      ∀ t, countTrig o.slices t ≤ cfg.PER_TRIGGER_CAP) ∧
    ((processUnits cfg units).1.map (fun o => o.slices.length)).sum ≤ cfg.TOTAL_CAP := by
  unfold processUnits
  have hs := processUnitsAux_spec cfg units 0 (Nat.zero_le _)
  constructor
  · intro o ho
    obtain ⟨u, hu, base, hb, _, _, hsl⟩ := hs.2.2 o ho
    have hcap := processUnit_caps cfg u base hb
    constructor
    · rw [hsl, sortSlices_length]
      exact hcap.2.2.1
    · intro t
      rw [hsl, countTrig_perm (sortSlices_perm _) t]
      exact hcap.2.2.2.1 t
  · have h1 := hs.1
    have h2 := hs.2.1
    omega

/-- C2: the accepted slice list of every emitted unit contains no two
same-trigger slices overlapping at or above `DEDUP_SAME` and no two
slices overlapping at or above `DEDUP_DIFF`, and this invariant is
preserved by every insertion through `_try_add_slice`. -/
theorem dedup_invariant (cfg : Config) :
    (∀ slices item total, List.Pairwise (PairP cfg) slices →
      List.Pairwise (PairP cfg) (tryAddSlice cfg slices item total).2.1) ∧
    (∀ units, ∀ o ∈ (processUnits cfg units).1, List.Pairwise (PairP cfg) o.slices) := by
  constructor
  · intro slices item total hP
    by_cases hc : cfg.PER_UNIT_CAP ≤ slices.length ∨ cfg.TOTAL_CAP ≤ total
    · simpa [tryAddSlice, hc] using hP
    · by_cases hd : dedupOk cfg slices item = true
      · have : (tryAddSlice cfg slices item total).2.1 = slices ++ [item] := by
          simp [tryAddSlice, hc, hd]
        rw [this, List.pairwise_append]
        refine ⟨hP, List.pairwise_singleton _ _, fun a ha b hb => ?_⟩
        rw [List.mem_singleton] at hb
        subst hb
        exact dedupOk_pairP cfg _ _ hd a ha
      · simpa [tryAddSlice, hc, hd] using hP
  · intro units o ho
    have hs := processUnitsAux_spec cfg units 0 (Nat.zero_le _)
    obtain ⟨u, hu, base, hb, _, _, hsl⟩ := hs.2.2 o ho
    have hcap := processUnit_caps cfg u base hb
    rw [hsl]
    exact ((sortSlices_perm _).pairwise_iff (fun h => pairP_symm cfg h)).mpr hcap.2.2.2.2

/-- C7 (amended): the slices of every emitted unit result are sorted by
`start_line` in ascending order (ties keep insertion order — the stable
sort uses no trigger-name tie-break). -/
theorem slices_sorted_by_start (cfg : Config) (units : List UnitIn) :
    ∀ o ∈ (processUnits cfg units).1, List.Pairwise byStart o.slices := by
  intro o ho
  have hs := processUnitsAux_spec cfg units 0 (Nat.zero_le _)
  obtain ⟨u, hu, base, hb, _, _, hsl⟩ := hs.2.2 o ho
  rw [hsl]
  exact List.sorted_insertionSort byStart _

/-- C10: when a unit's `pe_high` flag is false, every emitted slice of
the two embedded-executable triggers carries severity `"mid"` and was
produced by the high-trigger processing phase (so it is not subject to
the strong-high mid whitelist or quota). -/
theorem pe_slices_mid_in_high_phase (cfg : Config) (u : UnitIn) (base : Nat)
    (hbase : base ≤ cfg.TOTAL_CAP) (hpe : peHighOf cfg u = false)
    (x : Slice) (hx : x ∈ (processUnit cfg u base).1)
    (ht : x.trigger = "pe_embed" ∨ x.trigger = "mz_pe_hdr") :
    x.severity = "mid" ∧ x ∈ (highPhaseOf cfg u base).slices := by
  have h2 := midPhase_inv cfg u base hbase
  rcases h2.2.2.2.2.2.2 x hx with hx1 | hx2
  · have hF := (highPhase_inv cfg u base hbase).2.2.2.2.2.2 x hx1
    obtain ⟨k, m, hk, hm, hxeq⟩ := hF
    have htk : x.trigger = k := by rw [hxeq]; rfl
    have hsev' : x.severity = hsev k (peHighOf cfg u) := by rw [hxeq]; rfl
    refine ⟨?_, hx1⟩
    rw [hsev', hpe]
    rcases ht with h | h <;> rw [htk] at h <;> subst h <;> decide
  · obtain ⟨k, m, hk, hm, hxeq, _⟩ := hx2
    have htk : x.trigger = k := by rw [hxeq]; rfl
    exfalso
    rcases ht with h | h <;> rw [htk] at h <;> subst h <;>
      exact absurd hk (by decide)

/-- C6 (amended): under context gating, every emitted `indirect_call`
slice comes from a collected `indirect_call` match for which at least
one dangerous-API token occurs in the lines within `CONTEXT_RADIUS`
*lines* of the match's center line (the gate is a line radius, not a
character radius). -/
theorem indirect_line_gate (cfg : Config) (u : UnitIn) (base : Nat)
    (hbase : base ≤ cfg.TOTAL_CAP) (hco : cfg.INDIRECT_CONTEXT_ONLY = true)
    (x : Slice) (hx : x ∈ (processUnit cfg u base).1) (ht : x.trigger = "indirect_call") :
    ∃ m ∈ lookupM u.mid "indirect_call",
      contextOk (splitlines u.text) (centerFromIndex u.text m.1) cfg.CONTEXT_RADIUS = true ∧
      x = makeSlice cfg u (splitlines u.text) m.1 m.2.1 "indirect_call" "mid" := by
  rcases processUnit_provenance cfg u base hbase x hx with hF | hM
  · obtain ⟨k, m, hk, hm, hxeq⟩ := hF
    have htk : x.trigger = k := by rw [hxeq]; rfl
    rw [htk] at ht
    subst ht
    exact absurd hk (by decide)
  · obtain ⟨k, m, hk, hm, hxeq, hgate⟩ := hM
    have htk : x.trigger = k := by rw [hxeq]; rfl
    rw [htk] at ht
    subst ht
    exact ⟨m, hm, hgate rfl hco, hxeq⟩

theorem splitlinesAux_pos : ∀ t cur, cur ≠ [] → 1 ≤ (splitlinesAux cur t).length := by
  intro t
  induction t with
  | nil =>
    intro cur hc
    rw [splitlinesAux]
    rw [if_neg (by simpa using hc)]
    simp
  | cons c t' ih =>
    intro cur hc
    cases t' with
    | nil =>
      rw [splitlinesAux]
      split <;> simp
    | cons d rest =>
      rw [splitlinesAux]
      by_cases h1 : c = '\r'
      · rw [if_pos h1]
        by_cases h2 : d = '\n'
        · rw [if_pos h2]; simp
        · rw [if_neg h2]; simp
      · rw [if_neg h1]
        by_cases h3 : isLineBreak c = true
        · rw [if_pos h3]; simp
        · rw [if_neg h3]
          exact ih (c :: cur) (by simp)

theorem splitlinesAux_count (N : Nat) : ∀ t, t.length ≤ N → ∀ cur s, s < t.length →
    ((t.take s).count '\n') + 1 ≤ (splitlinesAux cur t).length := by
  induction N with
  | zero =>
    intro t ht cur s hs
    omega
  | succ N ihN =>
    intro t ht cur s hs
    cases t with
    | nil => simp at hs
    | cons c t' =>
      cases t' with
      | nil =>
        have hs0 : s = 0 := by simp at hs; omega
        subst hs0
        rw [splitlinesAux]
        split <;> simp
      | cons d rest =>
        rw [splitlinesAux]
        by_cases h1 : c = '\r'
        · rw [if_pos h1]
          subst h1
          by_cases h2 : d = '\n'
          · rw [if_pos h2]
            subst h2
            simp only [List.length_cons]
            rcases Nat.lt_or_ge s 2 with hs2 | hs2
            · have hcnt : (('\r' :: '\n' :: rest).take s).count '\n' = 0 := by
                rcases s with _ | s
                · simp
                · have hs1 : s = 0 := by omega
                  subst hs1
                  simp [List.take_succ_cons]
              rw [hcnt]
              omega
            · obtain ⟨s2, rfl⟩ : ∃ s2, s = s2 + 2 := ⟨s - 2, by omega⟩
              have hrec := ihN rest (by simp at ht; omega) [] s2 (by simp at hs; omega)
              rw [List.take_succ_cons, List.take_succ_cons, List.count_cons, List.count_cons]
              rw [if_pos (by decide : (('\n' : Char) == '\n') = true)]
              rw [if_neg (by decide : ¬ (('\r' : Char) == '\n') = true)]
              omega
          · rw [if_neg h2]
            simp only [List.length_cons]
            rcases Nat.eq_zero_or_pos s with rfl | hspos
            · simp only [List.take_zero, List.count_nil]
              omega
            · obtain ⟨s1, rfl⟩ : ∃ s1, s = s1 + 1 := ⟨s - 1, by omega⟩
              have hrec := ihN (d :: rest) (by simp at ht ⊢; omega) [] s1 (by simp at hs ⊢; omega)
              rw [List.take_succ_cons, List.count_cons]
              rw [if_neg (by decide : ¬ (('\r' : Char) == '\n') = true)]
              omega
        · rw [if_neg h1]
          by_cases h3 : isLineBreak c = true
          · rw [if_pos h3]
            simp only [List.length_cons]
            rcases Nat.eq_zero_or_pos s with rfl | hspos
            · simp only [List.take_zero, List.count_nil]
              omega
            · obtain ⟨s1, rfl⟩ : ∃ s1, s = s1 + 1 := ⟨s - 1, by omega⟩
              have hrec := ihN (d :: rest) (by simp at ht ⊢; omega) [] s1 (by simp at hs ⊢; omega)
              rw [List.take_succ_cons, List.count_cons]
              by_cases hcn : (c == '\n') = true
              · rw [if_pos hcn]; omega
              · rw [if_neg hcn]; omega
          · rw [if_neg h3]
            have hcn : ¬ (c == '\n') = true := by
              intro hne
              have he : c = '\n' := by simpa using hne
              rw [he] at h3
              exact h3 (by decide)
            rcases Nat.eq_zero_or_pos s with rfl | hspos
            · simpa using splitlinesAux_pos (d :: rest) (c :: cur) (by simp)
            · obtain ⟨s1, rfl⟩ : ∃ s1, s = s1 + 1 := ⟨s - 1, by omega⟩
              have hrec := ihN (d :: rest) (by simp at ht ⊢; omega) (c :: cur) s1
                (by simp at hs ⊢; omega)
              rw [List.take_succ_cons, List.count_cons]
              rw [if_neg hcn]
              omega

theorem center_le_lines (text : List Char) (s : Nat) (hs : s < text.length) :
    centerFromIndex text s ≤ (splitlines text).length := by
  unfold centerFromIndex splitlines
  exact splitlinesAux_count text.length text le_rfl [] s hs

theorem window_cons (lines : List (List Char)) (c n : Nat) (h1 : 1 ≤ c)
    (h2 : c ≤ lines.length) :
    ∃ m, window lines c n =
      (List.range' (c - n - 1) (m + 1)).map (fun i => (i + 1, lines.getD i [])) ∧
      c - n - 1 + m + 1 = min lines.length (c + n) := by
  have hcb : c ≤ min lines.length (c + n) := le_min h2 (Nat.le_add_right _ _)
  refine ⟨min lines.length (c + n) - (c - n - 1) - 1, ?_, by omega⟩
  show (List.range' (c - n - 1) (min lines.length (c + n) - (c - n - 1))).map
      (fun i => (i + 1, lines.getD i [])) =
    (List.range' (c - n - 1) (min lines.length (c + n) - (c - n - 1) - 1 + 1)).map
      (fun i => (i + 1, lines.getD i []))
  congr 2
  omega

theorem makeSlice_decomp (cfg : Config) (u : UnitIn) (lines : List (List Char)) (s e : Nat)
    (trig sev : String) :
    (makeSlice cfg u lines s e trig sev).decomp_slice =
      window lines (centerFromIndex u.text s) cfg.WINDOW_LINES := rfl

theorem makeSlice_start (cfg : Config) (u : UnitIn) (lines : List (List Char)) (s e : Nat)
    (trig sev : String) :
    (makeSlice cfg u lines s e trig sev).start_line =
      (match window lines (centerFromIndex u.text s) cfg.WINDOW_LINES with
       | [] => 1
       | h :: _ => h.1) := rfl

theorem makeSlice_end (cfg : Config) (u : UnitIn) (lines : List (List Char)) (s e : Nat)
    (trig sev : String) :
    (makeSlice cfg u lines s e trig sev).end_line =
      (match (window lines (centerFromIndex u.text s) cfg.WINDOW_LINES).getLast? with
       | none => min lines.length (2 * cfg.WINDOW_LINES)
       | some p => p.1) := rfl

theorem makeSlice_window (cfg : Config) (u : UnitIn) (s e : Nat) (trig sev : String)
    (hs : s < u.text.length) :
    1 ≤ (makeSlice cfg u (splitlines u.text) s e trig sev).start_line ∧
    (makeSlice cfg u (splitlines u.text) s e trig sev).start_line ≤
      (makeSlice cfg u (splitlines u.text) s e trig sev).end_line ∧
    (makeSlice cfg u (splitlines u.text) s e trig sev).end_line ≤ (splitlines u.text).length ∧
    (makeSlice cfg u (splitlines u.text) s e trig sev).decomp_slice.map (fun p => p.1) =
      List.range' (makeSlice cfg u (splitlines u.text) s e trig sev).start_line
        ((makeSlice cfg u (splitlines u.text) s e trig sev).end_line + 1 -
          (makeSlice cfg u (splitlines u.text) s e trig sev).start_line) ∧
    ∀ p ∈ (makeSlice cfg u (splitlines u.text) s e trig sev).decomp_slice,
      1 ≤ p.1 ∧ p.1 ≤ (splitlines u.text).length ∧
      p.2 = (splitlines u.text).getD (p.1 - 1) [] := by
  have hc1 : 1 ≤ centerFromIndex u.text s := by unfold centerFromIndex; omega
  have hc2 := center_le_lines u.text s hs
  obtain ⟨m, hw, hsum⟩ :=
    window_cons (splitlines u.text) (centerFromIndex u.text s) cfg.WINDOW_LINES hc1 hc2
  have hstart : (makeSlice cfg u (splitlines u.text) s e trig sev).start_line =
      centerFromIndex u.text s - cfg.WINDOW_LINES - 1 + 1 := by
    rw [makeSlice_start, hw, List.range'_succ, List.map_cons]
  have hend : (makeSlice cfg u (splitlines u.text) s e trig sev).end_line =
      centerFromIndex u.text s - cfg.WINDOW_LINES - 1 + m + 1 := by
    rw [makeSlice_end, hw, List.range'_concat, List.map_append, List.map_cons, List.map_nil,
      List.getLast?_concat]
    simp
  refine ⟨by omega, by omega, by omega, ?_, ?_⟩
  · rw [makeSlice_decomp, hw, hstart, hend, List.map_map]
    have hcomp : ((fun p => p.1) ∘ fun i => ((i + 1 : Nat), (splitlines u.text).getD i [])) =
        (1 + ·) := by
      funext i
      simp [Nat.add_comm]
    rw [hcomp, List.map_add_range']
    congr 1
    · omega
    · omega
  · intro p hp
    rw [makeSlice_decomp, hw] at hp
    obtain ⟨i, hi, hpi⟩ := List.mem_map.mp hp
    have hib := List.mem_range'_1.mp hi
    subst hpi
    refine ⟨by omega, by omega, ?_⟩
    simp

/-- The `Match` data-model invariant: every collected match has
`start_offset < end_offset` and its offsets lie within the unit's
text. -/
def WFUnit (u : UnitIn) : Prop :=
  (∀ p ∈ u.high, ∀ m ∈ p.2, m.1 < m.2.1 ∧ m.2.1 ≤ u.text.length) ∧
  (∀ p ∈ u.mid, ∀ m ∈ p.2, m.1 < m.2.1 ∧ m.2.1 ≤ u.text.length)

instance (u : UnitIn) : Decidable (WFUnit u) :=
  inferInstanceAs (Decidable
    ((∀ p ∈ u.high, ∀ m ∈ p.2, m.1 < m.2.1 ∧ m.2.1 ≤ u.text.length) ∧
      (∀ p ∈ u.mid, ∀ m ∈ p.2, m.1 < m.2.1 ∧ m.2.1 ≤ u.text.length)))

theorem lookupM_sub (l : List (String × List MatchT)) (k : String) :
    ∀ x ∈ lookupM l k, ∃ p ∈ l, x ∈ p.2 := by
  intro x hx
  unfold lookupM at hx
  cases hfind : l.find? (fun p => p.1 == k) with
  | none => rw [hfind] at hx; simp at hx
  | some p =>
    rw [hfind] at hx
    exact ⟨p, List.mem_of_find?_eq_some hfind, hx⟩

/-- C9: for every emitted unit result (of a batch whose collected
matches satisfy the `Match` invariant), every slice has
`1 ≤ start_line ≤ end_line ≤` the unit's line count, its `window_lines`
carry exactly the consecutive line numbers `start_line..end_line`, and
each carried line is the unit's line of that number. -/
theorem window_bounds (cfg : Config) (units : List UnitIn)
    (hwf : ∀ u ∈ units, WFUnit u) :
    ∀ o ∈ (processUnits cfg units).1, ∃ u ∈ units, o.unit_id = u.unit_id ∧
      ∀ x ∈ o.slices,
        1 ≤ x.start_line ∧ x.start_line ≤ x.end_line ∧
        x.end_line ≤ (splitlines u.text).length ∧
        x.decomp_slice.map (fun p => p.1) =
          List.range' x.start_line (x.end_line + 1 - x.start_line) ∧
        ∀ p ∈ x.decomp_slice,
          1 ≤ p.1 ∧ p.1 ≤ (splitlines u.text).length ∧
          p.2 = (splitlines u.text).getD (p.1 - 1) [] := by
  intro o ho
  obtain ⟨u, hu, base, hb, hid, _, hsl⟩ :=
    (processUnitsAux_spec cfg units 0 (Nat.zero_le _)).2.2 o ho
  refine ⟨u, hu, hid, ?_⟩
  intro x hx
  rw [hsl] at hx
  have hx' : x ∈ (processUnit cfg u base).1 := (sortSlices_perm _).mem_iff.mp hx
  rcases processUnit_provenance cfg u base hb x hx' with hF | hM
  · obtain ⟨k, m, hk, hm, hxeq⟩ := hF
    obtain ⟨p, hp, hmp⟩ := lookupM_sub u.high k m hm
    have hwfm := (hwf u hu).1 p hp m hmp
    have hsm : m.1 < u.text.length := by omega
    rw [hxeq]
    exact makeSlice_window cfg u m.1 m.2.1 k _ hsm
  · obtain ⟨k, m, hk, hm, hxeq, _⟩ := hM
    obtain ⟨p, hp, hmp⟩ := lookupM_sub u.mid k m hm
    have hwfm := (hwf u hu).2 p hp m hmp
    have hsm : m.1 < u.text.length := by omega
    rw [hxeq]
    exact makeSlice_window cfg u m.1 m.2.1 k _ hsm

/-- C4 (amended): `pe_high` is true iff at least one of the two
embedded-executable triggers fired and in addition either both fired
together or the number of distinct mid-severity trigger categories
reaches the configured promotion threshold.  (The co-occurrence /
mid-count disjunction alone does not suffice: a unit where no
embedded-executable trigger fired never gets `pe_high`.) -/
theorem pe_high_iff (cfg : Config) (found : List String) (midCatCount : Nat) :
    (severityPolicy cfg found midCatCount).pe_high = true ↔
      (("pe_embed" ∈ found ∨ "mz_pe_hdr" ∈ found) ∧
        (("pe_embed" ∈ found ∧ "mz_pe_hdr" ∈ found) ∨
          cfg.PE_PROMOTE_WITH_MID ≤ midCatCount)) := by
  unfold severityPolicy
  simp only [List.any_cons, List.any_nil, Bool.or_false, Bool.and_eq_true, Bool.or_eq_true,
    List.elem_iff, decide_eq_true_eq]

/-- The default configuration (`CFG` of the source), with the default
allowlist modelled as hitting nothing (its only registered trigger,
`reg_run`, is matched against fragments that contain none of the
default vendor patterns in all concrete inputs used below). -/
def cfgT : Config :=
  { WINDOW_LINES := 20, PER_UNIT_CAP := 12, TOTAL_CAP := 4000, SNIPPET_CHARS := 120,
    PE_PROMOTE_WITH_MID := 1, DEDUP_SAME := mkRat 3 5, DEDUP_DIFF := mkRat 9 10,
    SKIP_MID_WHEN_STRONG_HIGH := true, MID_MIN_WHEN_STRONG_HIGH := 2,
    MID_WHITELIST_STRONG := ["b64_blob", "anti_debug", "hex_array"], PER_TRIGGER_CAP := 3,
    INDIRECT_CONTEXT_ONLY := false, CONTEXT_RADIUS := 40, allowHit := fun _ _ => false }

/-- Claim C4 as stated, at the default promotion threshold 1, with no
high trigger fired and one mid category fired: the claimed equivalence
fails because the code also requires an embedded-executable trigger to
have fired before promoting. -/
theorem pe_high_cex :
    ¬ (((severityPolicy cfgT [] 1).pe_high = true) ↔
      (("pe_embed" ∈ ([] : List String) ∧ "mz_pe_hdr" ∈ ([] : List String)) ∨
        cfgT.PE_PROMOTE_WITH_MID ≤ 1)) := by
  decide

/-- C5: `_load_allowlist` replaces the allowlist with the merged
override keys only.  For the well-formed override
`{"service_str": ["Acme"]}` the resulting allowlist has no `reg_run`
entry at all, although `reg_run` has built-in default patterns — the
override is not additive over unmentioned triggers. -/
theorem allowlist_override_drops_defaults :
    (loadAllowlist [("service_str", ["Acme"])]).find? (fun p => p.1 == "reg_run") = none ∧
    (DEFAULT_ALLOW.find? (fun p => p.1 == "reg_run")).isSome = true ∧
    loadAllowlist [("service_str", ["Acme"])] = [("service_str", ["Acme"])] := by
  decide

/-- C8 (amended): the evidence excerpt is exactly the raw text from
`max(0, s - SNIPPET_CHARS)` to `min(len, e + SNIPPET_CHARS)`, and its
length is bounded by the match length plus twice the configured radius;
no match-independent configured maximum is applied. -/
theorem evidence_span_bound (cfg : Config) (u : UnitIn) (lines : List (List Char)) (s e : Nat)
    (trig sev : String) (hse : s ≤ e) :
    (makeSlice cfg u lines s e trig sev).evidence =
      (u.text.take (min u.text.length (e + cfg.SNIPPET_CHARS))).drop (s - cfg.SNIPPET_CHARS) ∧
    (makeSlice cfg u lines s e trig sev).evidence.length ≤ (e - s) + 2 * cfg.SNIPPET_CHARS := by
  have hev : (makeSlice cfg u lines s e trig sev).evidence =
      (u.text.drop (s - cfg.SNIPPET_CHARS)).take
        (min u.text.length (e + cfg.SNIPPET_CHARS) - (s - cfg.SNIPPET_CHARS)) := rfl
  constructor
  · rw [hev, List.drop_take]
  · rw [hev]
    have h1 : ((u.text.drop (s - cfg.SNIPPET_CHARS)).take
        (min u.text.length (e + cfg.SNIPPET_CHARS) - (s - cfg.SNIPPET_CHARS))).length ≤
        min u.text.length (e + cfg.SNIPPET_CHARS) - (s - cfg.SNIPPET_CHARS) := by
      rw [List.length_take]
      exact min_le_left _ _
    have h2 : min u.text.length (e + cfg.SNIPPET_CHARS) ≤ e + cfg.SNIPPET_CHARS :=
      min_le_right _ _
    omega

/-- Unit used for the sorting counterexample and several witnesses: a
`service_str` hit on line 1 and an `inline_syscall` hit on line 2, as
the high-severity patterns produce on this text. -/
def uA : UnitIn :=
  { unit_id := "uA", name := "a.c", text := "sc.exe create X\nsysenter\nzz".toList,
    high := [("service_str", [(0, 13, "sc.exe create".toList)]),
             ("inline_syscall", [(16, 24, "sysenter".toList)])],
    mid := [] }

/-- Default configuration with a one-line window, making the two `uA`
windows share their start line without overlapping enough to dedup. -/
def cfg7 : Config := { cfgT with WINDOW_LINES := 1 }

/-- Dictionary order on character lists (used to state the claimed
trigger-name tie-break). -/
def lexLe : List Char → List Char → Bool
  | [], _ => true
  | _ :: _, [] => false
  | a :: as, b :: bs => if a = b then lexLe as bs else decide (a < b)

/-- The ordering claimed by C7: ascending start line with the trigger
name as tie-break. -/
def SortClaimOrder (a b : Slice) : Prop :=
  a.start_line < b.start_line ∨
    (a.start_line = b.start_line ∧ lexLe a.trigger.data b.trigger.data = true)

instance : DecidableRel SortClaimOrder := fun a b =>
  inferInstanceAs (Decidable (a.start_line < b.start_line ∨
    (a.start_line = b.start_line ∧ lexLe a.trigger.data b.trigger.data = true)))

/-- C7 as stated fails: with a one-line window, unit `uA` emits the
slices `service_str` (lines 1-2) then `inline_syscall` (lines 1-3),
both starting at line 1, in catalog processing order — not ordered by
trigger name within the tie. -/
theorem sort_tiebreak_cex :
    ¬ (∀ o ∈ (processUnits cfg7 [uA]).1, List.Pairwise SortClaimOrder o.slices) := by
  decide

/-- Fallback values used to select concrete elements of computed lists
in witnesses. -/
def dummySlice : Slice :=
  { unit_id := "", name := "", trigger := "", severity := "", start_line := 0, end_line := 0,
    decomp_slice := [], evidence := [] }

def dummyOut : UnitOut := { unit_id := "", name := "", slices := [] }

theorem dedup_invariant_witness :
    List.Pairwise (PairP cfg7) (((processUnits cfg7 [uA]).1.headD dummyOut).slices) :=
  (dedup_invariant cfg7).2 [uA] ((processUnits cfg7 [uA]).1.headD dummyOut) (by decide)

theorem budget_caps_witness :
    ((processUnits cfg7 [uA]).1.headD dummyOut).slices.length ≤ cfg7.PER_UNIT_CAP ∧
    ∀ t, countTrig ((processUnits cfg7 [uA]).1.headD dummyOut).slices t ≤
      cfg7.PER_TRIGGER_CAP :=
  (budget_caps cfg7 [uA]).1 ((processUnits cfg7 [uA]).1.headD dummyOut) (by decide)

theorem slices_sorted_by_start_witness :
    List.Pairwise byStart (((processUnits cfg7 [uA]).1.headD dummyOut).slices) :=
  slices_sorted_by_start cfg7 [uA] ((processUnits cfg7 [uA]).1.headD dummyOut) (by decide)

theorem window_bounds_witness :
    ∃ u ∈ [uA], ((processUnits cfg7 [uA]).1.headD dummyOut).unit_id = u.unit_id ∧
      ∀ x ∈ ((processUnits cfg7 [uA]).1.headD dummyOut).slices,
        1 ≤ x.start_line ∧ x.start_line ≤ x.end_line ∧
        x.end_line ≤ (splitlines u.text).length ∧
        x.decomp_slice.map (fun p => p.1) =
          List.range' x.start_line (x.end_line + 1 - x.start_line) ∧
        ∀ p ∈ x.decomp_slice,
          1 ≤ p.1 ∧ p.1 ≤ (splitlines u.text).length ∧
          p.2 = (splitlines u.text).getD (p.1 - 1) [] :=
  window_bounds cfg7 [uA] (by decide) ((processUnits cfg7 [uA]).1.headD dummyOut) (by decide)

/-- Context-gated configuration with a radius of 1, used to separate
the claimed character radius from the implemented line radius. -/
def cfg6 : Config := { cfgT with INDIRECT_CONTEXT_ONLY := true, CONTEXT_RADIUS := 1 }

/-- A single-line unit whose text contains an `indirect_call` hit at
offsets 0-16 (as the indirect-call pattern produces) and a dangerous-API
token (`VirtualAlloc`) on the same line but more than one character away
from the match. -/
def u6 : UnitIn :=
  { unit_id := "u6", name := "b.c", text := "(*DAT_00401000)(); VirtualAlloc();".toList,
    high := [],
    mid := [("indirect_call", [(0, 16, "(*DAT_00401000)(".toList)])] }

/-- The context check as the claim states it: a dangerous-API token
within `radius` *characters* of the match (the text slice from
`max(0, s - radius)` to `min(len, e + radius)`), case-insensitively. -/
def charCtxOk (text : List Char) (s e radius : Nat) : Bool :=
  ctxHit (((text.take (min text.length (e + radius))).drop (s - radius)).map Char.toLower)

/-- C6 as stated fails: with context gating on and radius 1, no
dangerous-API token lies within 1 character of `u6`'s only
`indirect_call` match, yet the engine still emits an `indirect_call`
slice, because `_context_ok` applies the radius to *lines* (and the
token is on the same line). -/
theorem indirect_char_radius_cex :
    (∀ m ∈ lookupM u6.mid "indirect_call",
      charCtxOk u6.text m.1 m.2.1 cfg6.CONTEXT_RADIUS = false) ∧
    ∃ x ∈ (processUnit cfg6 u6 0).1, x.trigger = "indirect_call" := by
  decide

theorem indirect_line_gate_witness :
    ∃ m ∈ lookupM u6.mid "indirect_call",
      contextOk (splitlines u6.text) (centerFromIndex u6.text m.1) cfg6.CONTEXT_RADIUS = true ∧
      ((processUnit cfg6 u6 0).1.headD dummySlice) =
        makeSlice cfg6 u6 (splitlines u6.text) m.1 m.2.1 "indirect_call" "mid" :=
  indirect_line_gate cfg6 u6 0 (by decide) (by decide)
    ((processUnit cfg6 u6 0).1.headD dummySlice) (by decide) (by decide)

/-- Zero-width window configuration, letting the two `u10` slices
occupy disjoint line ranges. -/
def cfg10 : Config := { cfgT with WINDOW_LINES := 0 }

/-- A unit with an `inline_syscall` hit (so `strong_high` is set and
the restrictive mid path would be taken) and a lone `pe_embed` hit (so
`pe_high` is false), as the high patterns produce on this text. -/
def u10 : UnitIn :=
  { unit_id := "u10", name := "c.c",
    text := "__asm syscall\nThis program cannot be run in DOS mode\n".toList,
    high := [("inline_syscall", [(0, 13, "__asm syscall".toList)]),
             ("pe_embed", [(14, 52, "This program cannot be run in DOS mode".toList)])],
    mid := [] }

theorem pe_slices_mid_in_high_phase_witness :
    ((processUnit cfg10 u10 0).1.getD 1 dummySlice).severity = "mid" ∧
    ((processUnit cfg10 u10 0).1.getD 1 dummySlice) ∈ (highPhaseOf cfg10 u10 0).slices :=
  pe_slices_mid_in_high_phase cfg10 u10 0 (by decide) (by decide)
    ((processUnit cfg10 u10 0).1.getD 1 dummySlice) (by decide) (by decide)

/-- Configuration with a snippet radius of 2. -/
def cfg8 : Config := { cfgT with SNIPPET_CHARS := 2 }

/-- A unit with one `reg_run` hit of length 18 (as the registry-autorun
pattern produces on this text). -/
def u8 : UnitIn :=
  { unit_id := "u8", name := "d.c", text := "CurrentVersion\\Run xysc".toList,
    high := [("reg_run", [(0, 18, "CurrentVersion\\Run".toList)])], mid := [] }

/-- C8's "configured maximum length" fails: with snippet radius 2 the
emitted slice's evidence excerpt has length 20 — the excerpt grows with
the match (bounded only by match length plus twice the radius), so no
match-independent configured cap is applied. -/
theorem evidence_cap_cex :
    ¬ (∀ x ∈ (processUnit cfg8 u8 0).1, x.evidence.length ≤ 2 * cfg8.SNIPPET_CHARS) := by
  decide

theorem evidence_span_bound_witness :
    (makeSlice cfg8 u8 (splitlines u8.text) 0 18 "reg_run" "high").evidence =
      (u8.text.take (min u8.text.length (18 + cfg8.SNIPPET_CHARS))).drop
        (0 - cfg8.SNIPPET_CHARS) ∧
    (makeSlice cfg8 u8 (splitlines u8.text) 0 18 "reg_run" "high").evidence.length ≤
      (18 - 0) + 2 * cfg8.SNIPPET_CHARS :=
  evidence_span_bound cfg8 u8 (splitlines u8.text) 0 18 "reg_run" "high" (by decide)
